import Mathlib

/-!
Verification of the two game engines of the `no-wordle` repository
(`src/app/components/Wordle.tsx` and `src/app/components/Hangman.tsx`).

Words are represented as `List Char`, JavaScript `Set`s as `Finset`s,
JavaScript records keyed by single letters as functions `Char → Option _`.
-/

namespace NoWordle

/-- `LetterState` from `Wordle.tsx`: `"correct" | "present" | "absent" | "empty"`. -/
inductive LetterState where
  | correct
  | present
  | absent
  | empty
deriving DecidableEq, Fintype

/-- `Cell` from `Wordle.tsx`: `{ letter: string; state: LetterState }`. -/
structure Cell where
  letter : Char
  state : LetterState
deriving DecidableEq

/-- `gameState` values shared by both components: `"playing" | "won" | "lost"`. -/
inductive GameState where
  | playing
  | won
  | lost
deriving DecidableEq

def WORD_LENGTH : ℕ := 5

def MAX_GUESSES : ℕ := 6

def MAX_WRONG_GUESSES : ℕ := 6

/-- Model of JavaScript `toUpperCase()` restricted to the game's alphabet
(ASCII letters plus the Norwegian letters Æ, Ø, Å). -/
def upc (c : Char) : Char :=
  if 'a' ≤ c ∧ c ≤ 'z' then Char.ofNat (c.toNat - 32)
  else if c = 'æ' then 'Æ'
  else if c = 'ø' then 'Ø'
  else if c = 'å' then 'Å'
  else c

/-- First pass of `evaluateGuess` (`Wordle.tsx` lines 49–56): cell `i` is
marked `correct` when `guessLetters[i] === targetLetters[i]`, otherwise left
`empty`; the letter stored in the cell is `guessLetters[i]` in both branches. -/
def pass1Cells (guess target : List Char) : List Cell :=
  (List.range WORD_LENGTH).map fun i =>
    if guess.getD i '?' = target.getD i '?' then ⟨guess.getD i '?', LetterState.correct⟩
    else ⟨guess.getD i '?', LetterState.empty⟩

/-- The `usedIndices` set after the first pass: exactly the positions where
guess and target agree. -/
def pass1Used (guess target : List Char) : Finset ℕ :=
  (Finset.range WORD_LENGTH).filter fun i => guess.getD i '?' = target.getD i '?'

/-- `targetLetters.findIndex((targetLetter, idx) => targetLetter === letter
&& !usedIndices.has(idx))` from `Wordle.tsx` lines 63–65, with `-1` modelled
as `none`. -/
def findTargetIndex (target : List Char) (letter : Char) (used : Finset ℕ) : Option ℕ :=
  (List.range target.length).find? fun j =>
    target.getD j '?' == letter && !(decide (j ∈ used))

/-- One iteration of the second pass of `evaluateGuess` (`Wordle.tsx`
lines 59–73): positions already `correct` are skipped; otherwise the first
unconsumed occurrence of the guess letter in the target is consumed and the
cell becomes `present`, or `absent` when there is none. -/
def pass2Step (guess target : List Char) (st : List Cell × Finset ℕ) (i : ℕ) :
    List Cell × Finset ℕ :=
  if (st.1.getD i ⟨'?', LetterState.empty⟩).state = LetterState.correct then st
  else
    match findTargetIndex target (guess.getD i '?') st.2 with
    | some targetIndex =>
        (st.1.set i ⟨guess.getD i '?', LetterState.present⟩, insert targetIndex st.2)
    | none =>
        (st.1.set i ⟨guess.getD i '?', LetterState.absent⟩, st.2)

/-- `evaluateGuess` from `Wordle.tsx` lines 42–76. -/
def evaluateGuess (guess target : List Char) : List Cell :=
  ((List.range WORD_LENGTH).foldl (pass2Step guess target)
    (pass1Cells guess target, pass1Used guess target)).1

/-- Verdicts as the specification describes them: one of correct, present,
absent per position. -/
inductive Verdict where
  | correct
  | present
  | absent
deriving DecidableEq

/-- Reference algorithm, pass 1, following the spec's words: "pass 1 marks
position i correct and consumes target index i whenever guess[i] = target[i]";
positions not yet assigned a verdict are `none`. -/
def refPass1 (guess target : List Char) : List (Option Verdict) :=
  (List.range WORD_LENGTH).map fun i =>
    if guess.getD i '?' = target.getD i '?' then some Verdict.correct else none

/-- Reference algorithm: the target indices consumed by pass 1. -/
def refConsumed (guess target : List Char) : Finset ℕ :=
  (Finset.range WORD_LENGTH).filter fun i => guess.getD i '?' = target.getD i '?'

/-- Reference algorithm, one step of pass 2, following the spec's words:
"for each position not already correct, assigns present and consumes the
lowest still-unconsumed target index holding guess[i] if one exists, and
assigns absent otherwise". -/
def refStep (guess target : List Char) (st : List (Option Verdict) × Finset ℕ) (i : ℕ) :
    List (Option Verdict) × Finset ℕ :=
  if st.1.getD i none = some Verdict.correct then st
  else
    match (List.range target.length).find? (fun j =>
        decide (j ∉ st.2) && (target.getD j '?' == guess.getD i '?')) with
    | some j => (st.1.set i (some Verdict.present), insert j st.2)
    | none => (st.1.set i (some Verdict.absent), st.2)

/-- The two-pass reference algorithm of the specification (§4.2). -/
def referenceVerdicts (guess target : List Char) : List (Option Verdict) :=
  ((List.range WORD_LENGTH).foldl (refStep guess target)
    (refPass1 guess target, refConsumed guess target)).1

/-- The verdict a cell state denotes (`empty` denotes no verdict yet). -/
def cellVerdict : LetterState → Option Verdict
  | LetterState.correct => some Verdict.correct
  | LetterState.present => some Verdict.present
  | LetterState.absent => some Verdict.absent
  | LetterState.empty => none

/-- Map a pass-2 state of `evaluateGuess` to a state of the reference
algorithm: keep the consumed indices and read each cell's verdict. -/
def toRefState (st : List Cell × Finset ℕ) : List (Option Verdict) × Finset ℕ :=
  (st.1.map fun c => cellVerdict c.state, st.2)

lemma getD_map_cellVerdict (cells : List Cell) (i : ℕ) :
    (cells.map fun c => cellVerdict c.state).getD i none
      = cellVerdict ((cells.getD i ⟨'?', LetterState.empty⟩).state) := by
  rw [List.getD_eq_getElem?_getD, List.getD_eq_getElem?_getD, List.getElem?_map]
  cases cells[i]? <;> simp [cellVerdict]

lemma cellVerdict_eq_correct_iff (s : LetterState) :
    cellVerdict s = some Verdict.correct ↔ s = LetterState.correct := by
  cases s <;> simp [cellVerdict]

lemma find?_pred_eq (target : List Char) (letter : Char) (u : Finset ℕ) :
    (fun j => target.getD j '?' == letter && !(decide (j ∈ u)))
      = (fun j => decide (j ∉ u) && (target.getD j '?' == letter)) := by
  funext j
  simp [Bool.and_comm]

lemma step_comm (guess target : List Char) (i : ℕ) (st : List Cell × Finset ℕ) :
    toRefState (pass2Step guess target st i) = refStep guess target (toRefState st) i := by
  obtain ⟨cells, used⟩ := st
  unfold toRefState pass2Step refStep findTargetIndex
  dsimp only
  rw [getD_map_cellVerdict]
  by_cases h : (cells.getD i ⟨'?', LetterState.empty⟩).state = LetterState.correct
  · rw [if_pos h, if_pos ((cellVerdict_eq_correct_iff _).mpr h)]
  · rw [if_neg h, if_neg (fun hh => h ((cellVerdict_eq_correct_iff _).mp hh)),
      ← find?_pred_eq]
    cases hfind : (List.range target.length).find? fun j =>
        target.getD j '?' == guess.getD i '?' && !(decide (j ∈ used)) with
    | some j => simp [List.map_set, cellVerdict]
    | none => simp [List.map_set, cellVerdict]

lemma fold_comm (guess target : List Char) (l : List ℕ) :
    ∀ st : List Cell × Finset ℕ,
      toRefState (l.foldl (pass2Step guess target) st)
        = l.foldl (refStep guess target) (toRefState st) := by
  induction l with
  | nil => intro st; rfl
  | cons i l ih =>
    intro st
    rw [List.foldl_cons, List.foldl_cons, ih, step_comm]

lemma toRefState_init (guess target : List Char) :
    toRefState (pass1Cells guess target, pass1Used guess target)
      = (refPass1 guess target, refConsumed guess target) := by
  unfold toRefState
  refine Prod.ext ?_ rfl
  show (pass1Cells guess target).map (fun c => cellVerdict c.state) = refPass1 guess target
  unfold pass1Cells refPass1
  rw [List.map_map]
  refine List.map_congr_left ?_
  intro i _
  dsimp only [Function.comp]
  by_cases h : guess.getD i '?' = target.getD i '?'
  · rw [if_pos h, if_pos h]
    rfl
  · rw [if_neg h, if_neg h]
    rfl

/-- C1: for 5-letter guess and target, `evaluateGuess` computes exactly the
verdicts of the spec's two-pass reference algorithm (pass 1 marks and
consumes equal positions; pass 2 consumes the lowest still-unconsumed target
index holding the guess letter, else absent). -/
theorem evaluateGuess_matches_reference (guess target : List Char)
    (hg : guess.length = 5) (ht : target.length = 5) :
    (evaluateGuess guess target).map (fun c => cellVerdict c.state)
      = referenceVerdicts guess target := by
  have hfst : ∀ st : List Cell × Finset ℕ,
      (toRefState st).1 = st.1.map (fun c => cellVerdict c.state) := fun _ => rfl
  simp only [evaluateGuess, referenceVerdicts]
  rw [← toRefState_init, ← fold_comm, hfst]

/-- Witness for C1 at guess "ROARS", target "ERROR". -/
theorem evaluateGuess_matches_reference_witness :
    (evaluateGuess "ROARS".toList "ERROR".toList).map (fun c => cellVerdict c.state)
      = referenceVerdicts "ROARS".toList "ERROR".toList :=
  evaluateGuess_matches_reference "ROARS".toList "ERROR".toList rfl rfl

/-- C3 counterexample: guess "ROARS" against target "ERROR" does not yield
the verdict sequence [present, present, present, absent, absent] claimed by
the spec. -/
theorem roars_error_not_claimed_verdicts :
    ¬ ((evaluateGuess "ROARS".toList "ERROR".toList).map (fun c => c.state)
      = [LetterState.present, LetterState.present, LetterState.present,
         LetterState.absent, LetterState.absent]) := by decide

/-- C3 (amended): guess "ROARS" against target "ERROR" yields the verdict
sequence [present, present, absent, present, absent]: the three letters R, O,
R are present, while A and S are absent. -/
theorem roars_error_verdicts :
    (evaluateGuess "ROARS".toList "ERROR".toList).map (fun c => c.state)
      = [LetterState.present, LetterState.present, LetterState.absent,
         LetterState.present, LetterState.absent] := by decide

/-- Generic fold lemma: `foldl` preserves an invariant. -/
lemma foldl_invariant {α β : Type} (P : α → Prop) (f : α → β → α) :
    ∀ (l : List β) (a : α), P a → (∀ a' b, b ∈ l → P a' → P (f a' b)) → P (l.foldl f a) := by
  intro l
  induction l with
  | nil => intro a ha _; exact ha
  | cons b l ih =>
    intro a ha hstep
    rw [List.foldl_cons]
    exact ih (f a b) (hstep a b (List.mem_cons_self b l) ha)
      (fun a' b' hb' => hstep a' b' (List.mem_cons_of_mem b hb'))

/-- Generic fold lemma: a `foldl` whose steps all fix the start state
returns the start state. -/
lemma foldl_fixed {α β : Type} (f : α → β → α) :
    ∀ (l : List β) (a : α), (∀ b ∈ l, f a b = a) → l.foldl f a = a := by
  intro l
  induction l with
  | nil => intro a _; rfl
  | cons b l ih =>
    intro a h
    rw [List.foldl_cons, h b (List.mem_cons_self b l)]
    exact ih a (fun b' hb' => h b' (List.mem_cons_of_mem b hb'))

/-- Setting one entry changes a `countP` by at most the new entry's own
contribution. -/
lemma countP_set_le {α : Type} (p : α → Bool) :
    ∀ (l : List α) (i : ℕ) (a : α),
      (l.set i a).countP p ≤ l.countP p + (if p a then 1 else 0) := by
  intro l
  induction l with
  | nil => intro i a; simp
  | cons b l ih =>
    intro i a
    cases i with
    | zero =>
      rw [List.set_cons_zero, List.countP_cons, List.countP_cons]
      by_cases hb : p b <;> by_cases ha : p a <;> simp [hb, ha]
    | succ n =>
      rw [List.set_cons_succ, List.countP_cons, List.countP_cons]
      have := ih n a
      by_cases hb : p b <;> simp [hb] <;> omega

lemma countP_range_getD {α : Type} (d : α) :
    ∀ (t : List α) (p : α → Bool),
      t.countP p = (List.range t.length).countP (fun i => p (t.getD i d)) := by
  intro t
  induction t with
  | nil => intro p; simp
  | cons a t ih =>
    intro p
    rw [List.countP_cons, List.length_cons, List.range_succ_eq_map, List.countP_cons,
      List.countP_map]
    congr 1
    rw [ih p]
    refine congrArg (fun q => List.countP q (List.range t.length)) ?_
    funext i
    dsimp only [Function.comp]
    rw [List.getD_cons_succ]

lemma card_filter_range (q : ℕ → Prop) [DecidablePred q] :
    ∀ n : ℕ, ((Finset.range n).filter q).card = (List.range n).countP (fun i => decide (q i)) := by
  intro n
  induction n with
  | zero => simp
  | succ n ih =>
    rw [Finset.range_succ, List.range_succ n, Finset.filter_insert, List.countP_append]
    by_cases h : q n
    · have hn : n ∉ (Finset.range n).filter q := fun hmem =>
        absurd (Finset.mem_range.mp (Finset.mem_filter.mp hmem).1) (lt_irrefl n)
      rw [if_pos h, Finset.card_insert_of_not_mem hn, ih]
      simp [h]
    · rw [if_neg h, ih]
      simp [h]

lemma card_filter_range_getD (t : List Char) (c : Char) :
    ((Finset.range t.length).filter fun j => t.getD j '?' = c).card = t.count c := by
  rw [card_filter_range]
  have h1 : t.count c = t.countP (fun x => x == c) := List.count_eq_countP ..
  have h2 : (fun x : Char => x == c) = (fun x : Char => decide (x = c)) := by
    funext x
    by_cases h : x = c <;> simp [h]
  rw [h1, h2, countP_range_getD '?' t]

/-- Number of positions of a scored row that hold letter `c` and were scored
correct or present. -/
def scoredFor (cells : List Cell) (c : Char) : ℕ :=
  cells.countP fun cell =>
    cell.letter == c &&
      (cell.state == LetterState.correct || cell.state == LetterState.present)

lemma scoredFor_set_le (l : List Cell) (i : ℕ) (a : Cell) (c : Char) :
    scoredFor (l.set i a) c ≤ scoredFor l c +
      (if a.letter == c &&
          (a.state == LetterState.correct || a.state == LetterState.present)
        then 1 else 0) :=
  countP_set_le _ l i a

/-- Invariant of the second pass used for the letter-count bound: every
consumed index is a target index, and each letter's scored count is bounded
by the number of consumed indices holding that letter. -/
def scoreInv (target : List Char) (c : Char) (st : List Cell × Finset ℕ) : Prop :=
  st.2 ⊆ Finset.range target.length ∧
  scoredFor st.1 c ≤ (st.2.filter fun j => target.getD j '?' = c).card

lemma scoreInv_init (guess target : List Char) (c : Char) (ht : target.length = 5) :
    scoreInv target c (pass1Cells guess target, pass1Used guess target) := by
  constructor
  · show pass1Used guess target ⊆ Finset.range target.length
    rw [ht]
    exact Finset.filter_subset _ _
  · show scoredFor (pass1Cells guess target) c
      ≤ ((pass1Used guess target).filter fun j => target.getD j '?' = c).card
    have hcount : scoredFor (pass1Cells guess target) c
        = (List.range WORD_LENGTH).countP
            (fun i => decide (guess.getD i '?' = target.getD i '?' ∧ target.getD i '?' = c)) := by
      unfold scoredFor pass1Cells
      rw [List.countP_map]
      refine congrArg (fun q => List.countP q (List.range WORD_LENGTH)) ?_
      funext i
      dsimp only [Function.comp]
      by_cases h : guess.getD i '?' = target.getD i '?'
      · rw [if_pos h, h]
        generalize target.getD i '?' = b
        by_cases hc : b = c <;> simp [hc]
      · rw [if_neg h]
        dsimp only
        rw [show (LetterState.empty == LetterState.correct
            || LetterState.empty == LetterState.present) = false from rfl, Bool.and_false]
        exact (decide_eq_false_iff_not.mpr fun hh => h hh.1).symm
    have hcard : ((pass1Used guess target).filter fun j => target.getD j '?' = c).card
        = (List.range WORD_LENGTH).countP
            (fun i => decide (guess.getD i '?' = target.getD i '?' ∧ target.getD i '?' = c)) := by
      unfold pass1Used
      rw [Finset.filter_filter, card_filter_range]
    rw [hcount, hcard]

lemma scoreInv_step (guess target : List Char) (c : Char) (st : List Cell × Finset ℕ) (i : ℕ)
    (h : scoreInv target c st) : scoreInv target c (pass2Step guess target st i) := by
  obtain ⟨hsub, hle⟩ := h
  unfold pass2Step
  by_cases hc : (st.1.getD i ⟨'?', LetterState.empty⟩).state = LetterState.correct
  · rw [if_pos hc]
    exact ⟨hsub, hle⟩
  · rw [if_neg hc]
    cases hfind : findTargetIndex target (guess.getD i '?') st.2 with
    | none =>
      refine ⟨hsub, ?_⟩
      show scoredFor (st.1.set i ⟨guess.getD i '?', LetterState.absent⟩) c ≤ _
      refine le_trans (scoredFor_set_le _ _ _ _) ?_
      simpa using hle
    | some j =>
      unfold findTargetIndex at hfind
      have hpred := List.find?_some hfind
      have hmem := List.mem_of_find?_eq_some hfind
      rw [Bool.and_eq_true, Bool.not_eq_eq_eq_not, Bool.not_true, decide_eq_false_iff_not]
        at hpred
      have htj : target.getD j '?' = guess.getD i '?' := by
        have := hpred.1
        rwa [beq_iff_eq] at this
      have hjnot : j ∉ st.2 := hpred.2
      have hjlt : j < target.length := List.mem_range.mp hmem
      constructor
      · show insert j st.2 ⊆ Finset.range target.length
        exact Finset.insert_subset (Finset.mem_range.mpr hjlt) hsub
      · show scoredFor (st.1.set i ⟨guess.getD i '?', LetterState.present⟩) c
          ≤ ((insert j st.2).filter fun k => target.getD k '?' = c).card
        rw [Finset.filter_insert]
        by_cases hcc : target.getD j '?' = c
        · have hjf : j ∉ st.2.filter fun k => target.getD k '?' = c :=
            fun hmemf => hjnot (Finset.mem_filter.mp hmemf).1
          rw [if_pos hcc, Finset.card_insert_of_not_mem hjf]
          have hlc : guess.getD i '?' = c := htj ▸ hcc
          have hstep := scoredFor_set_le st.1 i ⟨guess.getD i '?', LetterState.present⟩ c
          have hcond : ((⟨guess.getD i '?', LetterState.present⟩ : Cell).letter == c &&
              ((⟨guess.getD i '?', LetterState.present⟩ : Cell).state == LetterState.correct ||
               (⟨guess.getD i '?', LetterState.present⟩ : Cell).state == LetterState.present))
              = true := by
            dsimp only
            rw [hlc]
            simp
          rw [hcond] at hstep
          refine le_trans hstep ?_
          simpa using Nat.add_le_add_right hle 1
        · rw [if_neg hcc]
          refine le_trans (scoredFor_set_le _ _ _ _) ?_
          have hlc : ¬ (guess.getD i '?' = c) := fun hh => hcc (htj.trans hh)
          have hbeq : (guess.getD i '?' == c) = false := by
            rw [beq_eq_false_iff_ne]
            exact hlc
          have : ((⟨guess.getD i '?', LetterState.present⟩ : Cell).letter == c &&
              ((⟨guess.getD i '?', LetterState.present⟩ : Cell).state == LetterState.correct ||
               (⟨guess.getD i '?', LetterState.present⟩ : Cell).state == LetterState.present))
              = false := by
            dsimp only
            rw [hbeq, Bool.false_and]
          rw [this]
          simpa using hle

/-- C2: for 5-letter guess and target, the number of positions scored
correct or present for a letter `c` never exceeds the number of occurrences
of `c` in the target. -/
theorem scored_le_target_count (guess target : List Char) (c : Char)
    (hg : guess.length = 5) (ht : target.length = 5) :
    scoredFor (evaluateGuess guess target) c ≤ target.count c := by
  have hinv : scoreInv target c ((List.range WORD_LENGTH).foldl (pass2Step guess target)
      (pass1Cells guess target, pass1Used guess target)) :=
    foldl_invariant _ _ _ _ (scoreInv_init guess target c ht)
      (fun a' b _ ha' => scoreInv_step guess target c a' b ha')
  obtain ⟨hsub, hle⟩ := hinv
  simp only [evaluateGuess]
  refine le_trans hle (le_trans ?_ (le_of_eq (card_filter_range_getD target c)))
  exact Finset.card_le_card (Finset.filter_subset_filter _ hsub)

/-- Witness for C2 at guess "ROARS", target "ERROR", letter R. -/
theorem scored_le_target_count_witness :
    scoredFor (evaluateGuess "ROARS".toList "ERROR".toList) 'R'
      ≤ "ERROR".toList.count 'R' :=
  scored_le_target_count "ROARS".toList "ERROR".toList 'R' rfl rfl

/-- One step of `updateLetterStates` (`Wordle.tsx` lines 82–92): update the
keyboard hint of `cell.letter` only if the new state is "better". -/
def updateOne (newStates : Char → Option LetterState) (cell : Cell) :
    Char → Option LetterState :=
  if newStates cell.letter = none ∨ newStates cell.letter = some LetterState.absent then
    fun l => if l = cell.letter then some cell.state else newStates l
  else if newStates cell.letter = some LetterState.present ∧
      cell.state = LetterState.correct then
    fun l => if l = cell.letter then some LetterState.correct else newStates l
  else newStates

/-- `updateLetterStates` from `Wordle.tsx` lines 79–96, as a function of the
previous keyboard-hint map and the freshly scored row. -/
def updateLetterStates (states : Char → Option LetterState) (cells : List Cell) :
    Char → Option LetterState :=
  cells.foldl updateOne states

/-- The upgrade order on keyboard hints described by the spec: absent may be
replaced by present or correct, present only by correct, correct never
replaced; an unset hint (`none`) may become anything. -/
def hintLe : Option LetterState → Option LetterState → Bool
  | none, _ => true
  | some LetterState.absent, some LetterState.absent => true
  | some LetterState.absent, some LetterState.present => true
  | some LetterState.absent, some LetterState.correct => true
  | some LetterState.present, some LetterState.present => true
  | some LetterState.present, some LetterState.correct => true
  | some LetterState.correct, some LetterState.correct => true
  | some LetterState.empty, some LetterState.empty => true
  | _, _ => false

lemma hintLe_refl : ∀ a : Option LetterState, hintLe a a = true := by decide

lemma hintLe_trans : ∀ a b c : Option LetterState,
    hintLe a b = true → hintLe b c = true → hintLe a c = true := by decide

lemma updateOne_mono (m : Char → Option LetterState) (cell : Cell)
    (hc : cell.state ≠ LetterState.empty) (l : Char) :
    hintLe (m l) (updateOne m cell l) = true := by
  unfold updateOne
  by_cases h1 : m cell.letter = none ∨ m cell.letter = some LetterState.absent
  · rw [if_pos h1]
    by_cases hl : l = cell.letter
    · subst hl
      rw [if_pos rfl]
      rcases h1 with h1 | h1 <;> rw [h1] <;>
        cases hs : cell.state <;> first | exact absurd hs hc | decide
    · rw [if_neg hl]
      exact hintLe_refl _
  · rw [if_neg h1]
    by_cases h2 : m cell.letter = some LetterState.present ∧
        cell.state = LetterState.correct
    · rw [if_pos h2]
      by_cases hl : l = cell.letter
      · subst hl
        rw [if_pos rfl, h2.1]
        decide
      · rw [if_neg hl]
        exact hintLe_refl _
    · rw [if_neg h2]
      exact hintLe_refl _

lemma updateLetterStates_mono :
    ∀ (cells : List Cell) (m : Char → Option LetterState),
      (∀ cell ∈ cells, cell.state ≠ LetterState.empty) → ∀ l : Char,
      hintLe (m l) (updateLetterStates m cells l) = true := by
  intro cells
  induction cells with
  | nil => intro m _ l; exact hintLe_refl _
  | cons cell cells ih =>
    intro m h l
    show hintLe (m l) ((cells.foldl updateOne (updateOne m cell)) l) = true
    exact hintLe_trans _ _ _
      (updateOne_mono m cell (h cell (List.mem_cons_self _ _)) l)
      (ih (updateOne m cell) (fun c hc => h c (List.mem_cons_of_mem _ hc)) l)

/-- C6: feeding any sequence of scored rows (rows whose cells carry actual
verdicts, never `empty`) to `updateLetterStates` only moves each letter's
keyboard hint upward in the lattice absent < present < correct: absent may
become present or correct, present may only become correct, and correct is
never replaced. -/
theorem keyboard_hints_monotone (rows : List (List Cell)) :
    ∀ m : Char → Option LetterState,
      (∀ row ∈ rows, ∀ cell ∈ row, cell.state ≠ LetterState.empty) →
      ∀ l : Char, hintLe (m l) ((rows.foldl updateLetterStates m) l) = true := by
  induction rows with
  | nil => intro m _ l; exact hintLe_refl _
  | cons row rows ih =>
    intro m h l
    rw [List.foldl_cons]
    exact hintLe_trans _ _ _
      (updateLetterStates_mono row m (h row (List.mem_cons_self _ _)) l)
      (ih (updateLetterStates m row) (fun r hr => h r (List.mem_cons_of_mem _ hr)) l)

/-- Witness for C6: one scored row upgrading an unset hint for A. -/
theorem keyboard_hints_monotone_witness :
    hintLe ((fun _ => none) 'A')
      (([[(⟨'A', LetterState.correct⟩ : Cell)]].foldl updateLetterStates
        (fun _ => none)) 'A') = true :=
  keyboard_hints_monotone [[(⟨'A', LetterState.correct⟩ : Cell)]] (fun _ => none)
    (by decide) 'A'

/-- Wordle component state (`Wordle.tsx` lines 17–28): target word, submitted
scored rows, in-progress buffer, phase, keyboard hints, and the queued
"not a word" notices (id, fadeOut). -/
structure WordleSession where
  targetWord : List Char
  guesses : List (List Cell)
  currentGuess : List Char
  gameState : GameState
  letterStates : Char → Option LetterState
  invalidWordMessages : List (ℕ × Bool)

/-- `newMessages.slice(-6)` (`Wordle.tsx` line 108): keep only the last 6
messages. -/
def lastSix (l : List (ℕ × Bool)) : List (ℕ × Bool) := l.drop (l.length - 6)

/-- `submitGuess` from `Wordle.tsx` lines 99–148, with the state updates
flattened into one record. `now` models `Date.now()`; the fade-out timers
only mutate `invalidWordMessages` later and are not modelled. -/
def submitGuess (words : List (List Char)) (now : ℕ) (s : WordleSession) : WordleSession :=
  if s.currentGuess.length ≠ WORD_LENGTH ∨ s.gameState ≠ GameState.playing then s
  else if s.currentGuess.map upc ∉ words.map (fun w => w.map upc) then
    { s with invalidWordMessages := lastSix (s.invalidWordMessages ++ [(now, false)]) }
  else
    { s with
      guesses := s.guesses ++ [evaluateGuess (s.currentGuess.map upc) s.targetWord],
      letterStates := updateLetterStates s.letterStates
        (evaluateGuess (s.currentGuess.map upc) s.targetWord),
      currentGuess := [],
      gameState :=
        if s.currentGuess.map upc = s.targetWord then GameState.won
        else if MAX_GUESSES ≤
            (s.guesses ++ [evaluateGuess (s.currentGuess.map upc) s.targetWord]).length then
          GameState.lost
        else s.gameState }

lemma getD_map_range {α : Type} (f : ℕ → α) (n i : ℕ) (hi : i < n) (d : α) :
    ((List.range n).map f).getD i d = f i := by
  rw [List.getD_eq_getElem?_getD, List.getElem?_map, List.getElem?_range hi]
  rfl

lemma pass1Cells_self (t : List Char) :
    pass1Cells t t
      = (List.range WORD_LENGTH).map fun i => (⟨t.getD i '?', LetterState.correct⟩ : Cell) := by
  unfold pass1Cells
  refine List.map_congr_left ?_
  intro i _
  rw [if_pos rfl]

lemma evaluateGuess_self (t : List Char) :
    evaluateGuess t t
      = (List.range WORD_LENGTH).map fun i => (⟨t.getD i '?', LetterState.correct⟩ : Cell) := by
  unfold evaluateGuess
  rw [pass1Cells_self]
  have hfix : ∀ i ∈ List.range WORD_LENGTH,
      pass2Step t t
        ((List.range WORD_LENGTH).map (fun k => (⟨t.getD k '?', LetterState.correct⟩ : Cell)),
          pass1Used t t) i
      = ((List.range WORD_LENGTH).map (fun k => (⟨t.getD k '?', LetterState.correct⟩ : Cell)),
          pass1Used t t) := by
    intro i hi
    have hlt : i < WORD_LENGTH := List.mem_range.mp hi
    have hcorr : (((List.range WORD_LENGTH).map
          (fun k => (⟨t.getD k '?', LetterState.correct⟩ : Cell)),
          pass1Used t t).1.getD i ⟨'?', LetterState.empty⟩).state = LetterState.correct := by
      dsimp only
      rw [getD_map_range _ _ _ hlt]
    unfold pass2Step
    rw [if_pos hcorr]
  rw [foldl_fixed _ _ _ hfix]

lemma evaluateGuess_self_correct (t : List Char) :
    ∀ cell ∈ evaluateGuess t t, cell.state = LetterState.correct := by
  intro cell hc
  rw [evaluateGuess_self] at hc
  obtain ⟨i, _, rfl⟩ := List.mem_map.mp hc
  rfl

/-- C4: in a playing Wordle session whose (uppercase, 5-letter) target word
is in the word list, submitting a buffer equal to the target appends a row
scored all-correct and sets the phase to won. -/
theorem submit_target_word_wins (words : List (List Char)) (now : ℕ) (s : WordleSession)
    (hphase : s.gameState = GameState.playing)
    (hbuf : s.currentGuess = s.targetWord)
    (hlen : s.targetWord.length = 5)
    (hupper : s.targetWord.map upc = s.targetWord)
    (hmem : s.targetWord ∈ words.map fun w => w.map upc) :
    (submitGuess words now s).guesses
        = s.guesses ++ [evaluateGuess s.targetWord s.targetWord] ∧
    (∀ cell ∈ evaluateGuess s.targetWord s.targetWord,
        cell.state = LetterState.correct) ∧
    (submitGuess words now s).gameState = GameState.won := by
  have hup : s.currentGuess.map upc = s.targetWord := by rw [hbuf, hupper]
  have hguard : ¬ (s.currentGuess.length ≠ WORD_LENGTH ∨ s.gameState ≠ GameState.playing) := by
    push_neg
    refine ⟨?_, hphase⟩
    rw [hbuf, hlen]
    rfl
  have hmem2 : ¬ (s.currentGuess.map upc ∉ words.map fun w => w.map upc) := by
    rw [hup]
    exact not_not_intro hmem
  unfold submitGuess
  rw [if_neg hguard, if_neg hmem2]
  refine ⟨?_, evaluateGuess_self_correct _, ?_⟩
  · show s.guesses ++ [evaluateGuess (s.currentGuess.map upc) s.targetWord] = _
    rw [hup]
  · show (if s.currentGuess.map upc = s.targetWord then GameState.won
      else if MAX_GUESSES ≤
          (s.guesses ++ [evaluateGuess (s.currentGuess.map upc) s.targetWord]).length then
        GameState.lost
      else s.gameState) = GameState.won
    rw [if_pos hup]

/-- Word list used by the concrete witnesses. -/
def witnessWords : List (List Char) := [['a', 'p', 'p', 'l', 'e']]

/-- A playing Wordle session about to submit its own target word. -/
def witnessSessionWin : WordleSession :=
  { targetWord := ['A', 'P', 'P', 'L', 'E'], guesses := [],
    currentGuess := ['A', 'P', 'P', 'L', 'E'], gameState := GameState.playing,
    letterStates := fun _ => none, invalidWordMessages := [] }

/-- Witness for C4. -/
theorem submit_target_word_wins_witness :
    (submitGuess witnessWords 0 witnessSessionWin).guesses
        = witnessSessionWin.guesses
          ++ [evaluateGuess witnessSessionWin.targetWord witnessSessionWin.targetWord] ∧
    (∀ cell ∈ evaluateGuess witnessSessionWin.targetWord witnessSessionWin.targetWord,
        cell.state = LetterState.correct) ∧
    (submitGuess witnessWords 0 witnessSessionWin).gameState = GameState.won :=
  submit_target_word_wins witnessWords 0 witnessSessionWin rfl rfl rfl
    (by decide) (by decide)

/-- C5: in a playing Wordle session with a 5-letter buffer whose uppercase
form is not in the word list, `submitGuess` leaves the submitted rows, the
buffer, the keyboard hints and the phase unchanged, and only queues a
transient notice. -/
theorem submit_invalid_word_rejected (words : List (List Char)) (now : ℕ) (s : WordleSession)
    (hphase : s.gameState = GameState.playing)
    (hlen : s.currentGuess.length = 5)
    (hmem : s.currentGuess.map upc ∉ words.map fun w => w.map upc) :
    (submitGuess words now s).guesses = s.guesses ∧
    (submitGuess words now s).currentGuess = s.currentGuess ∧
    (submitGuess words now s).letterStates = s.letterStates ∧
    (submitGuess words now s).gameState = s.gameState ∧
    (submitGuess words now s).invalidWordMessages
      = lastSix (s.invalidWordMessages ++ [(now, false)]) := by
  have hguard : ¬ (s.currentGuess.length ≠ WORD_LENGTH ∨ s.gameState ≠ GameState.playing) := by
    push_neg
    exact ⟨hlen, hphase⟩
  unfold submitGuess
  rw [if_neg hguard, if_pos hmem]
  exact ⟨rfl, rfl, rfl, rfl, rfl⟩

/-- A playing Wordle session holding a 5-letter non-word buffer. -/
def witnessSessionInvalid : WordleSession :=
  { targetWord := ['A', 'P', 'P', 'L', 'E'], guesses := [],
    currentGuess := ['Z', 'Z', 'Z', 'Z', 'Z'], gameState := GameState.playing,
    letterStates := fun _ => none, invalidWordMessages := [] }

/-- Witness for C5. -/
theorem submit_invalid_word_rejected_witness :
    (submitGuess witnessWords 7 witnessSessionInvalid).guesses
        = witnessSessionInvalid.guesses ∧
    (submitGuess witnessWords 7 witnessSessionInvalid).currentGuess
        = witnessSessionInvalid.currentGuess ∧
    (submitGuess witnessWords 7 witnessSessionInvalid).letterStates
        = witnessSessionInvalid.letterStates ∧
    (submitGuess witnessWords 7 witnessSessionInvalid).gameState
        = witnessSessionInvalid.gameState ∧
    (submitGuess witnessWords 7 witnessSessionInvalid).invalidWordMessages
        = lastSix (witnessSessionInvalid.invalidWordMessages ++ [(7, false)]) :=
  submit_invalid_word_rejected witnessWords 7 witnessSessionInvalid rfl rfl (by decide)

/-- Per-letter keyboard states of `Hangman.tsx`: `"correct" | "wrong"`
(`"unused"` is the absence of an entry, modelled as `none`). -/
inductive HLetterState where
  | hcorrect
  | hwrong
deriving DecidableEq

/-- Hangman component state (`Hangman.tsx` lines 9–17). -/
structure HangmanSession where
  targetWord : List Char
  guessedLetters : Finset Char
  wrongGuesses : ℕ
  gameState : GameState
  letterStates : Char → Option HLetterState

/-- `handleLetterGuess` from `Hangman.tsx` lines 31–62, with the state
updates flattened into one record per branch. Note the duplicate check uses
the raw `letter` while the stored set holds `letter.toUpperCase()`. -/
def handleLetterGuess (letter : Char) (s : HangmanSession) : HangmanSession :=
  if s.gameState ≠ GameState.playing ∨ letter ∈ s.guessedLetters then s
  else if upc letter ∈ s.targetWord then
    { s with
      guessedLetters := insert (upc letter) s.guessedLetters,
      letterStates := fun l => if l = upc letter then some HLetterState.hcorrect
        else s.letterStates l,
      gameState :=
        if (s.targetWord.dedup).all
            (fun l => decide (l ∈ insert (upc letter) s.guessedLetters))
        then GameState.won else s.gameState }
  else
    { s with
      guessedLetters := insert (upc letter) s.guessedLetters,
      letterStates := fun l => if l = upc letter then some HLetterState.hwrong
        else s.letterStates l,
      wrongGuesses := s.wrongGuesses + 1,
      gameState :=
        if MAX_WRONG_GUESSES ≤ s.wrongGuesses + 1 then GameState.lost
        else s.gameState }

/-- The freshly initialized Hangman state for a drawn word `w`
(`Hangman.tsx` lines 20–28): the drawn word is uppercased. -/
def initHangman (w : List Char) : HangmanSession :=
  { targetWord := w.map upc, guessedLetters := ∅, wrongGuesses := 0,
    gameState := GameState.playing, letterStates := fun _ => none }

/-- The distinct key events `handleKeyPress` can receive: ENTER, BACKSPACE,
or a single character. -/
inductive Key where
  | enter
  | backspace
  | char (c : Char)

/-- The regex `/[A-ZÆØÅ]/i` applied to a single character. -/
def isGuessableKey (c : Char) : Bool :=
  ('A' ≤ c && c ≤ 'Z') || ('a' ≤ c && c ≤ 'z')
    || (['Æ', 'Ø', 'Å', 'æ', 'ø', 'å'] : List Char).contains c

/-- `handleKeyPress` from `Hangman.tsx` lines 65–85. `pick` models the
random word drawn when ENTER resets the game. A single-character key is
forwarded to `handleLetterGuess` only when it matches the letter regex and
its uppercase form has not been guessed. -/
def hangmanKeyPress (pick : List Char) (key : Key) (s : HangmanSession) : HangmanSession :=
  if s.gameState ≠ GameState.playing then s
  else
    match key with
    | Key.enter => initHangman pick
    | Key.char c =>
        if isGuessableKey c then
          if upc c ∈ s.guessedLetters then s else handleLetterGuess c s
        else s
    | Key.backspace => s

/-- The Hangman sessions reachable from a fresh game on word `w` by pressing
letter keys (ENTER starts a fresh game on a new word and is covered by
`init` for that word). -/
inductive HangmanReachable (w : List Char) : HangmanSession → Prop where
  | init : HangmanReachable w (initHangman w)
  | step (pick : List Char) (c : Char) {s : HangmanSession} :
      HangmanReachable w s → HangmanReachable w (hangmanKeyPress pick (Key.char c) s)

/-- The combined reachability invariant of a Hangman session: the target is
the uppercased drawn word, the phase is won exactly when every target letter
has been guessed, and the wrong-guess counter equals the number of distinct
guessed letters outside the target. -/
lemma hangman_inv (w : List Char) (hw : w ≠ []) {s : HangmanSession}
    (hr : HangmanReachable w s) :
    s.targetWord = w.map upc ∧
    (s.gameState = GameState.won ↔ ∀ c ∈ s.targetWord, c ∈ s.guessedLetters) ∧
    s.wrongGuesses = (s.guessedLetters \ s.targetWord.toFinset).card := by
  induction hr with
  | init =>
    refine ⟨rfl, ?_, by simp [initHangman]⟩
    constructor
    · intro h
      exact absurd h (by simp [initHangman])
    · intro h
      obtain ⟨a, ha⟩ := List.exists_mem_of_ne_nil (w.map upc) (by simpa using hw)
      exact absurd (h a ha) (by simp [initHangman])
  | step pick c hr ih =>
    rename_i s
    obtain ⟨ht, hiff, hcard⟩ := ih
    unfold hangmanKeyPress
    by_cases hp : s.gameState ≠ GameState.playing
    · rw [if_pos hp]
      exact ⟨ht, hiff, hcard⟩
    · rw [if_neg hp]
      have hplay : s.gameState = GameState.playing := not_not.mp hp
      dsimp only
      by_cases hg : isGuessableKey c
      · rw [if_pos hg]
        by_cases hdup : upc c ∈ s.guessedLetters
        · rw [if_pos hdup]
          exact ⟨ht, hiff, hcard⟩
        · rw [if_neg hdup]
          unfold handleLetterGuess
          by_cases hraw : c ∈ s.guessedLetters
          · rw [if_pos (Or.inr hraw)]
            exact ⟨ht, hiff, hcard⟩
          · rw [if_neg (not_or.mpr ⟨fun hh => hh hplay, hraw⟩)]
            by_cases hin : upc c ∈ s.targetWord
            · rw [if_pos hin]
              refine ⟨ht, ?_, ?_⟩
              · constructor
                · intro hwon
                  by_cases hall : (s.targetWord.dedup).all
                      (fun l => decide (l ∈ insert (upc c) s.guessedLetters)) = true
                  · intro x hx
                    exact of_decide_eq_true
                      (List.all_eq_true.mp hall x (List.mem_dedup.mpr hx))
                  · rw [if_neg hall, hplay] at hwon
                    simp at hwon
                · intro hcov
                  have hall : (s.targetWord.dedup).all
                      (fun l => decide (l ∈ insert (upc c) s.guessedLetters)) = true := by
                    rw [List.all_eq_true]
                    intro x hx
                    exact decide_eq_true (hcov x (List.mem_dedup.mp hx))
                  show (if _ then GameState.won else s.gameState) = GameState.won
                  rw [if_pos hall]
              · show s.wrongGuesses
                  = ((insert (upc c) s.guessedLetters) \ s.targetWord.toFinset).card
                rw [Finset.insert_sdiff_of_mem _ (List.mem_toFinset.mpr hin)]
                exact hcard
            · rw [if_neg hin]
              refine ⟨ht, ?_, ?_⟩
              · constructor
                · intro hwon
                  by_cases h6 : MAX_WRONG_GUESSES ≤ s.wrongGuesses + 1
                  · rw [if_pos h6] at hwon
                    simp at hwon
                  · rw [if_neg h6, hplay] at hwon
                    simp at hwon
                · intro hcov
                  have hcov' : ∀ x ∈ s.targetWord, x ∈ s.guessedLetters := by
                    intro x hx
                    rcases Finset.mem_insert.mp (hcov x hx) with h1 | h1
                    · exact absurd (h1 ▸ hx) hin
                    · exact h1
                  have hwon := hiff.mpr hcov'
                  rw [hplay] at hwon
                  exact absurd hwon (by decide)
              · show s.wrongGuesses + 1
                  = ((insert (upc c) s.guessedLetters) \ s.targetWord.toFinset).card
                rw [Finset.insert_sdiff_of_not_mem _
                    (fun hmem => hin (List.mem_toFinset.mp hmem)),
                  Finset.card_insert_of_not_mem
                    (fun hmem => hdup (Finset.mem_sdiff.mp hmem).1),
                  hcard]
      · rw [if_neg hg]
        exact ⟨ht, hiff, hcard⟩

/-- C7: in every reachable Hangman session on a drawn word `w`, the phase is
won exactly when every distinct character of the target word has been
guessed. -/
theorem hangman_won_iff_covered (w : List Char) (hw : w ≠ []) {s : HangmanSession}
    (hr : HangmanReachable w s) :
    s.gameState = GameState.won ↔ ∀ c ∈ s.targetWord, c ∈ s.guessedLetters :=
  (hangman_inv w hw hr).2.1

/-- Witness for C7 at the fresh session on word "KL". -/
theorem hangman_won_iff_covered_witness :
    (initHangman ['K', 'L']).gameState = GameState.won
      ↔ ∀ c ∈ (initHangman ['K', 'L']).targetWord,
          c ∈ (initHangman ['K', 'L']).guessedLetters :=
  hangman_won_iff_covered ['K', 'L'] (by decide) HangmanReachable.init

/-- C8: from any reachable, still-playing session with five distinct wrong
letters guessed, guessing a sixth distinct wrong letter makes the phase
lost, and it stays lost under any further key presses; the order of the
earlier guesses is arbitrary. -/
theorem hangman_sixth_wrong_loses (w : List Char) (hw : w ≠ []) {s : HangmanSession}
    (hr : HangmanReachable w s)
    (hplay : s.gameState = GameState.playing)
    (h5 : (s.guessedLetters \ s.targetWord.toFinset).card = 5)
    (c : Char) (halpha : isGuessableKey c = true) (hup : upc c = c)
    (hnotg : upc c ∉ s.guessedLetters) (hnott : upc c ∉ s.targetWord)
    (pick : List Char) (keys : List Key) :
    (hangmanKeyPress pick (Key.char c) s).gameState = GameState.lost ∧
    (keys.foldl (fun s' k => hangmanKeyPress pick k s')
      (hangmanKeyPress pick (Key.char c) s)).gameState = GameState.lost := by
  have hinv := hangman_inv w hw hr
  have hwrong5 : s.wrongGuesses = 5 := by rw [hinv.2.2, h5]
  have hlost : (hangmanKeyPress pick (Key.char c) s).gameState = GameState.lost := by
    unfold hangmanKeyPress
    rw [if_neg (not_not_intro hplay)]
    dsimp only
    rw [if_pos halpha, if_neg hnotg]
    unfold handleLetterGuess
    rw [if_neg (not_or.mpr ⟨fun hh => hh hplay, hup ▸ hnotg⟩), if_neg hnott]
    show (if MAX_WRONG_GUESSES ≤ s.wrongGuesses + 1 then GameState.lost
      else s.gameState) = GameState.lost
    rw [hwrong5, if_pos (by decide)]
  refine ⟨hlost, ?_⟩
  have hfix : ∀ s' : HangmanSession, s'.gameState = GameState.lost →
      ∀ k : Key, (hangmanKeyPress pick k s').gameState = GameState.lost := by
    intro s' hs' k
    unfold hangmanKeyPress
    rw [if_pos (by rw [hs']; decide)]
    exact hs'
  exact foldl_invariant (fun s' => s'.gameState = GameState.lost)
    (fun s' k => hangmanKeyPress pick k s') keys _ hlost
    (fun a' b _ ha' => hfix a' ha' b)

/-- A reachable session on word "KL" after the five wrong guesses A–E. -/
def witnessHangmanFive : HangmanSession :=
  hangmanKeyPress [] (Key.char 'E') (hangmanKeyPress [] (Key.char 'D')
    (hangmanKeyPress [] (Key.char 'C') (hangmanKeyPress [] (Key.char 'B')
      (hangmanKeyPress [] (Key.char 'A') (initHangman ['K', 'L'])))))

/-- Witness for C8: the sixth wrong letter F loses, and G afterwards is
ignored. -/
theorem hangman_sixth_wrong_loses_witness :
    (hangmanKeyPress [] (Key.char 'F') witnessHangmanFive).gameState = GameState.lost ∧
    ([Key.char 'G'].foldl (fun s' k => hangmanKeyPress [] k s')
      (hangmanKeyPress [] (Key.char 'F') witnessHangmanFive)).gameState
        = GameState.lost :=
  hangman_sixth_wrong_loses ['K', 'L'] (by decide)
    (HangmanReachable.step [] 'E' (HangmanReachable.step [] 'D'
      (HangmanReachable.step [] 'C' (HangmanReachable.step [] 'B'
        (HangmanReachable.step [] 'A' HangmanReachable.init)))))
    (by decide) (by decide) 'F' (by decide) (by decide) (by decide) (by decide)
    [] [Key.char 'G']

/-- C9: a letter key whose letter identity is already among the guessed
letters (case-insensitively, with the stored set uppercase as the component
keeps it) is a complete no-op: the session is unchanged. -/
theorem duplicate_letter_guess_noop (pick : List Char) (s : HangmanSession) (c : Char)
    (hupper : ∀ x ∈ s.guessedLetters, upc x = x)
    (hdup : ∃ x ∈ s.guessedLetters, upc x = upc c) :
    hangmanKeyPress pick (Key.char c) s = s := by
  obtain ⟨x, hx, hxc⟩ := hdup
  have hc : upc c ∈ s.guessedLetters := by
    rw [← hxc, hupper x hx]
    exact hx
  unfold hangmanKeyPress
  by_cases hp : s.gameState ≠ GameState.playing
  · rw [if_pos hp]
  · rw [if_neg hp]
    dsimp only
    by_cases hg : isGuessableKey c
    · rw [if_pos hg, if_pos hc]
    · rw [if_neg hg]

/-- A playing session that has already guessed (wrong letter) A. -/
def witnessHangmanDup : HangmanSession :=
  { targetWord := ['K', 'L'], guessedLetters := {'A'}, wrongGuesses := 1,
    gameState := GameState.playing, letterStates := fun _ => none }

/-- Witness for C9: pressing lowercase a after A was guessed changes
nothing. -/
theorem duplicate_letter_guess_noop_witness :
    hangmanKeyPress [] (Key.char 'a') witnessHangmanDup = witnessHangmanDup :=
  duplicate_letter_guess_noop [] witnessHangmanDup 'a' (by decide)
    ⟨'A', by decide, by decide⟩

/-- C10: once the Hangman phase is won or lost, the keyboard ENTER path is a
complete no-op; only the separate reset operation restarts the game. -/
theorem enter_ignored_after_game_over (pick : List Char) (s : HangmanSession)
    (h : s.gameState ≠ GameState.playing) :
    hangmanKeyPress pick Key.enter s = s := by
  unfold hangmanKeyPress
  rw [if_pos h]

/-- A lost session. -/
def witnessHangmanLost : HangmanSession :=
  { targetWord := ['K', 'L'], guessedLetters := {'A', 'B', 'C', 'D', 'E', 'F'},
    wrongGuesses := 6, gameState := GameState.lost, letterStates := fun _ => none }

/-- Witness for C10: ENTER on a lost session changes nothing. -/
theorem enter_ignored_after_game_over_witness :
    hangmanKeyPress ['K', 'L'] Key.enter witnessHangmanLost = witnessHangmanLost :=
  enter_ignored_after_game_over ['K', 'L'] witnessHangmanLost (by decide)

end NoWordle
